import Mathlib

/-!
Shallow embedding of the board-game engine in `src/chess_OOP.py`.

Conventions used throughout:
* A Python board `self.board` (a list of 8 row lists, each holding `None` or a
  piece object) is embedded as `Board := List (List (Option Piece))`.
* Python list indexing `l[i]` (which accepts negative indices, wrapping them by
  the list length, and raises `IndexError` otherwise) is embedded by `pyGet`;
  a raised `IndexError` is `Except.error ()` in the fallible functions.
* Squares are pairs of unbounded integers `(row, col)`, exactly like the Python
  tuples; `boardAt` is the *actual* content of an on-board square (it returns
  `none` off the board), while `getPieceE` is a faithful model of
  `ChessBoard.get_piece` including Python's negative-index wrap-around.
* Python `//` (floor division) is `Int.fdiv`.
* Piece objects are immutable values `(kind, color)`; `copy.deepcopy` of a
  board is the identity on these values.
-/

set_option maxRecDepth 100000

namespace Chess

/-- Equality of fallible results is decidable; needed so that concrete runs of
the fallible operations can be checked by `decide`. -/
instance {ε α : Type} [DecidableEq ε] [DecidableEq α] :
    DecidableEq (Except ε α) := fun a b =>
  match a, b with
  | .error e, .error f =>
    if h : e = f then .isTrue (by rw [h])
    else .isFalse (fun hh => by cases hh; exact h rfl)
  | .error _, .ok _ => .isFalse (fun hh => by cases hh)
  | .ok _, .error _ => .isFalse (fun hh => by cases hh)
  | .ok x, .ok y =>
    if h : x = y then .isTrue (by rw [h])
    else .isFalse (fun hh => by cases hh; exact h rfl)

/-- Bind on a successful `Except` computation. -/
@[simp] theorem exceptBind_ok {ε α β : Type} (a : α) (f : α → Except ε β) :
    ((Except.ok a : Except ε α) >>= f) = f a := rfl

/-- Bind on a failed `Except` computation. -/
@[simp] theorem exceptBind_error {ε α β : Type} (e : ε)
    (f : α → Except ε β) :
    ((Except.error e : Except ε α) >>= f) = Except.error e := rfl

/-- `pure` for `Except` is `Except.ok`. -/
@[simp] theorem exceptPure_eq {ε α : Type} (a : α) :
    (pure a : Except ε α) = Except.ok a := rfl

/-- `Functor.map` on a successful `Except` computation. -/
@[simp] theorem exceptMap_ok {ε α β : Type} (a : α) (f : α → β) :
    (f <$> (Except.ok a : Except ε α)) = Except.ok (f a) := rfl

/-- Piece colors, `'white'` / `'black'` in the source. -/
inductive Color where
  | white
  | black
deriving DecidableEq, Repr

/-- The closed set of piece classes appearing in the source
(`King, Queen, Rook, Bishop, Knight, Pawn, Archer, Striker, Oracle,
CheckerPiece`). -/
inductive Kind where
  | king
  | queen
  | rook
  | bishop
  | knight
  | pawn
  | archer
  | striker
  | oracle
  | checker
deriving DecidableEq, Repr

/-- A piece value: its class tag and its `color` attribute. -/
structure Piece where
  kind : Kind
  color : Color
deriving DecidableEq, Repr

/-- A square `(row, col)` as a pair of Python integers. -/
abbrev IPos := Int × Int

/-- The 8x8 grid `self.board`: a list of row lists of optional pieces,
mirroring the Python list-of-lists representation. -/
abbrev Board := List (List (Option Piece))

/-- Python list indexing `l[i]`: non-negative indices are used directly,
negative indices in `[-len, 0)` wrap by the length, anything else raises
(`none` here). -/
def pyGet {α : Type} (l : List α) (i : Int) : Option α :=
  if 0 ≤ i then
    if i < (l.length : Int) then l[i.toNat]? else none
  else
    if 0 ≤ i + (l.length : Int) then l[(i + (l.length : Int)).toNat]? else none

/-- `ChessBoard.get_piece((x, y))`, i.e. `self.board[x][y]`:
faithful to Python indexing (negative wrap-around), raising (`Except.error`)
when an index is out of range on either axis. -/
def getPieceE (b : Board) (p : IPos) : Except Unit (Option Piece) :=
  match pyGet b p.1 with
  | none => .error ()
  | some row =>
    match pyGet row p.2 with
    | none => .error ()
    | some cell => .ok cell

/-- Whether a square lies on the 8x8 board (`0 <= x < 8 and 0 <= y < 8`). -/
def onBoard (p : IPos) : Prop :=
  0 ≤ p.1 ∧ p.1 < 8 ∧ 0 ≤ p.2 ∧ p.2 < 8

instance (p : IPos) : Decidable (onBoard p) := by
  unfold onBoard; infer_instance

/-- The true content of a square: the stored piece for on-board squares and
`none` for any off-board square.  This is what every *bounds-guarded*
`get_piece` call in the source observes. -/
def boardAt (b : Board) (p : IPos) : Option Piece :=
  if onBoard p then
    match b[p.1.toNat]? with
    | some row =>
      match row[p.2.toNat]? with
      | some cell => cell
      | none => none
    | none => none
  else none

/-- Well-formedness of the concrete representation: 8 rows of 8 cells.
Every board the Python program ever constructs has this shape. -/
def BoardWF (b : Board) : Prop :=
  b.length = 8 ∧ ∀ r ∈ b, r.length = 8

instance (b : Board) : Decidable (BoardWF b) := by
  unfold BoardWF; infer_instance

/-- A completely empty 8x8 board. -/
def emptyBoard : Board := List.replicate 8 (List.replicate 8 none)

/-- Offset-table move generation shared by King, Knight, Archer (jump part) and
Oracle: for each `(dx, dy)` in order, the target is kept iff it is on the board
and empty or occupied by the opposite color.  All `get_piece` calls here are
bounds-guarded in the source, hence `boardAt`. -/
def offsetMoves (b : Board) (c : Color) (pos : IPos) (offs : List IPos) :
    List IPos :=
  (offs.map (fun o => (pos.1 + o.1, pos.2 + o.2))).filter
    (fun q =>
      decide (onBoard q) &&
        match boardAt b q with
        | none => true
        | some p => decide (p.color ≠ c))

/-- `King.valid_moves`: the eight single-step directions. -/
def kingMoves (b : Board) (c : Color) (pos : IPos) : List IPos :=
  offsetMoves b c pos
    [(-1, -1), (-1, 0), (-1, 1), (0, -1), (0, 1), (1, -1), (1, 0), (1, 1)]

/-- `Knight.valid_moves`: the eight knight offsets. -/
def knightMoves (b : Board) (c : Color) (pos : IPos) : List IPos :=
  offsetMoves b c pos
    [(-2, -1), (-2, 1), (-1, -2), (-1, 2), (1, -2), (1, 2), (2, -1), (2, 1)]

/-- `Oracle.valid_moves`: eight two-square jumps, no path check. -/
def oracleMoves (b : Board) (c : Color) (pos : IPos) : List IPos :=
  offsetMoves b c pos
    [(-2, -2), (-2, 0), (-2, 2), (0, -2), (0, 2), (2, -2), (2, 0), (2, 2)]

/-- One direction of the `while True` walk in
`ChessBoard.get_linear_moves` (and, with `fuel = 2`, the `for _ in range(2)`
body of `Striker.valid_moves`, whose loop body is identical): step to the next
square; off-board stops; an empty square is emitted and the walk continues; the
first occupied square is emitted iff it holds the opposite color, and the walk
stops.  `fuel = 8` iterations are enough for the unbounded Python loop to reach
the board edge from any on-board start in any nonzero unit direction. -/
def getLinearDir (b : Board) (c : Color) : IPos → IPos → Nat → List IPos
  | _, _, 0 => []
  | pos, d, fuel + 1 =>
    if onBoard (pos.1 + d.1, pos.2 + d.2) then
      match boardAt b (pos.1 + d.1, pos.2 + d.2) with
      | some p => if p.color ≠ c then [(pos.1 + d.1, pos.2 + d.2)] else []
      | none =>
        (pos.1 + d.1, pos.2 + d.2) ::
          getLinearDir b c (pos.1 + d.1, pos.2 + d.2) d fuel
    else []

/-- `ChessBoard.get_linear_moves(position, color, directions)`: the walks of
all directions, concatenated in direction order. -/
def getLinearMoves (b : Board) (pos : IPos) (c : Color) (dirs : List IPos) :
    List IPos :=
  (dirs.map (fun d => getLinearDir b c pos d 8)).flatten

/-- The direction table of `Rook.valid_moves`. -/
def rookDirs : List IPos := [(1, 0), (-1, 0), (0, 1), (0, -1)]

/-- The direction table of `Bishop.valid_moves`. -/
def bishopDirs : List IPos := [(1, 1), (-1, -1), (1, -1), (-1, 1)]

/-- `Rook.valid_moves`. -/
def rookMoves (b : Board) (c : Color) (pos : IPos) : List IPos :=
  getLinearMoves b pos c rookDirs

/-- `Bishop.valid_moves`. -/
def bishopMoves (b : Board) (c : Color) (pos : IPos) : List IPos :=
  getLinearMoves b pos c bishopDirs

/-- `Queen.valid_moves`: the Rook list followed by the Bishop list. -/
def queenMoves (b : Board) (c : Color) (pos : IPos) : List IPos :=
  rookMoves b c pos ++ bishopMoves b c pos

/-- The capturing diagonal ray of `Archer.valid_moves`: walk a diagonal,
skipping (not emitting) empty squares, and emit only the first occupied square
when it holds the opposite color. -/
def archerRay (b : Board) (c : Color) : IPos → IPos → Nat → List IPos
  | _, _, 0 => []
  | pos, d, fuel + 1 =>
    let q : IPos := (pos.1 + d.1, pos.2 + d.2)
    if onBoard q then
      match boardAt b q with
      | some p => if p.color ≠ c then [q] else []
      | none => archerRay b c q d fuel
    else []

/-- `Archer.valid_moves`: two-square jumps in the eight directions, then the
four diagonal capture rays. -/
def archerMoves (b : Board) (c : Color) (pos : IPos) : List IPos :=
  offsetMoves b c pos
      [(-2, 0), (2, 0), (0, -2), (0, 2), (-2, -2), (-2, 2), (2, -2), (2, 2)] ++
    ([((-1 : Int), (-1 : Int)), (-1, 1), (1, -1), (1, 1)].map
        (fun d => archerRay b c pos d 8)).flatten

/-- `Striker.valid_moves`: the queen-like walk capped at two steps per
direction; the `for _ in range(2)` loop body coincides with the
`get_linear_moves` walk body, so it is `getLinearDir` with fuel 2. -/
def strikerMoves (b : Board) (c : Color) (pos : IPos) : List IPos :=
  ([(1, 0), (-1, 0), (0, 1), (0, -1),
    ((1 : Int), (1 : Int)), (-1, -1), (1, -1), (-1, 1)].map
      (fun d => getLinearDir b c pos d 2)).flatten

/-- The pawn's movement direction: `-1` for white, `1` for black. -/
def pawnDir (c : Color) : Int := if c = Color.white then -1 else 1

/-- The pawn's start rank: row 6 for white, row 1 for black. -/
def pawnStartRow (c : Color) : Int := if c = Color.white then 6 else 1

/-- The forward / double-forward section of `Pawn.valid_moves`, applied to
the (already fetched) content `fp` of the one-step-forward square: if that
square is empty the forward square is offered, and when the pawn additionally
stands on its start rank the double-forward square is read (unguarded
`get_piece`, so it may raise) and offered when also empty. -/
def pawnForwardE (b : Board) (c : Color) (pos : IPos) (fp : Option Piece) :
    Except Unit (List IPos) :=
  match fp with
  | some _ => .ok []
  | none =>
    if pos.1 = pawnStartRow c then
      match getPieceE b (pos.1 + 2 * pawnDir c, pos.2) with
      | .error e => .error e
      | .ok dp =>
        match dp with
        | none =>
          .ok [(pos.1 + pawnDir c, pos.2), (pos.1 + 2 * pawnDir c, pos.2)]
        | some _ => .ok [(pos.1 + pawnDir c, pos.2)]
    else .ok [(pos.1 + pawnDir c, pos.2)]

/-- One diagonal-capture candidate of `Pawn.valid_moves`: guarded on the
*column only*; the unguarded `get_piece` then reads the square (wrapping a
negative row), and the destination is offered iff it yields an opposing
piece. -/
def pawnDiagE (b : Board) (c : Color) (pos : IPos) (dy : Int) :
    Except Unit (List IPos) :=
  if 0 ≤ pos.2 + dy ∧ pos.2 + dy < 8 then
    match getPieceE b (pos.1 + pawnDir c, pos.2 + dy) with
    | .error e => .error e
    | .ok p =>
      match p with
      | some q =>
        .ok (if q.color ≠ c then [(pos.1 + pawnDir c, pos.2 + dy)] else [])
      | none => .ok []
  else .ok []

/-- `Pawn.valid_moves`, faithful to the source: the forward and double-forward
reads use the *unguarded* `get_piece`, so a forward row of `-1` wraps to row 7
(Python negative indexing) and a forward row of `8` raises; the diagonal reads
guard only the column.  Order: forward, double-forward, then the `dy = -1` and
`dy = 1` diagonals. -/
def pawnMovesE (b : Board) (c : Color) (pos : IPos) :
    Except Unit (List IPos) :=
  match getPieceE b (pos.1 + pawnDir c, pos.2) with
  | .error e => .error e
  | .ok fp =>
    match pawnForwardE b c pos fp with
    | .error e => .error e
    | .ok m1 =>
      match pawnDiagE b c pos (-1) with
      | .error e => .error e
      | .ok d1 =>
        match pawnDiagE b c pos 1 with
        | .error e => .error e
        | .ok d2 => .ok (m1 ++ d1 ++ d2)

/-- The checker's forward-diagonal directions for its color. -/
def checkerDirs (c : Color) : List IPos :=
  if c = Color.white then [(-1, -1), (-1, 1)] else [(1, -1), (1, 1)]

/-- One jump candidate of `CheckerPiece.valid_moves`: landing two diagonal
squares away, guarded for the landing square only; the middle square is read
with the unguarded `get_piece` (it cannot leave `[-8, 8)` when the position and
landing square are on the board, but the read is modelled faithfully). -/
def checkerJump (b : Board) (c : Color) (pos : IPos) (d : IPos) :
    Except Unit (List IPos) := do
  let land : IPos := (pos.1 + 2 * d.1, pos.2 + 2 * d.2)
  let mid : IPos := (pos.1 + d.1, pos.2 + d.2)
  if onBoard land then do
    let lp := boardAt b land
    let mp ← getPieceE b mid
    match lp, mp with
    | none, some q => pure (if q.color ≠ c then [land] else [])
    | _, _ => pure ([] : List IPos)
  else
    pure ([] : List IPos)

/-- The jump loop of `CheckerPiece.valid_moves`, in direction order. -/
def checkerJumps (b : Board) (c : Color) (pos : IPos) :
    List IPos → Except Unit (List IPos)
  | [] => pure []
  | d :: rest => do
    let here ← checkerJump b c pos d
    let more ← checkerJumps b c pos rest
    pure (here ++ more)

/-- `CheckerPiece.valid_moves`: single diagonal steps onto empty squares
(bounds-guarded), then jumps. -/
def checkerMovesE (b : Board) (c : Color) (pos : IPos) :
    Except Unit (List IPos) := do
  let dirs := checkerDirs c
  let singles := dirs.filterMap (fun d =>
    let q : IPos := (pos.1 + d.1, pos.2 + d.2)
    if onBoard q ∧ boardAt b q = none then some q else none)
  let js ← checkerJumps b c pos dirs
  pure (singles ++ js)

/-- Polymorphic dispatch of `valid_moves` over the piece's class.  The guarded
generators are total; Pawn and CheckerPiece may raise. -/
def validMovesE (p : Piece) (b : Board) (pos : IPos) :
    Except Unit (List IPos) :=
  match p.kind with
  | .king => .ok (kingMoves b p.color pos)
  | .queen => .ok (queenMoves b p.color pos)
  | .rook => .ok (rookMoves b p.color pos)
  | .bishop => .ok (bishopMoves b p.color pos)
  | .knight => .ok (knightMoves b p.color pos)
  | .pawn => pawnMovesE b p.color pos
  | .archer => .ok (archerMoves b p.color pos)
  | .striker => .ok (strikerMoves b p.color pos)
  | .oracle => .ok (oracleMoves b p.color pos)
  | .checker => checkerMovesE b p.color pos

/-- The index a Python assignment `l[i] = v` actually writes to: the wrapped
index for `i` in `[-len, len)`, and a raise (`none`) otherwise. -/
def pyIdxOf (len : Nat) (i : Int) : Option Nat :=
  if 0 ≤ i then
    if i < (len : Int) then some i.toNat else none
  else
    if 0 ≤ i + (len : Int) then some (i + (len : Int)).toNat else none

/-- `self.board[x][y] = v`, with Python index semantics on both axes. -/
def setCellE (b : Board) (p : IPos) (v : Option Piece) : Except Unit Board :=
  match pyIdxOf b.length p.1 with
  | none => .error ()
  | some x =>
    match b[x]? with
    | none => .error ()
    | some row =>
      match pyIdxOf row.length p.2 with
      | none => .error ()
      | some y => .ok (b.set x (row.set y v))

/-- `ChessBoard.move_piece(start, end)`: if a piece stands at `start` and `end`
is in its `valid_moves`, write the piece to `end`, clear `start` and return
`True`; otherwise return `False` with the board untouched. -/
def movePieceE (b : Board) (s e : IPos) : Except Unit (Bool × Board) := do
  let p? ← getPieceE b s
  match p? with
  | none => pure (false, b)
  | some p => do
    let mvs ← validMovesE p b s
    if e ∈ mvs then do
      let b1 ← setCellE b e (some p)
      let b2 ← setCellE b1 s none
      pure (true, b2)
    else
      pure (false, b)

/-- `CheckerBoard.move_piece(start, end)`: like `ChessBoard.move_piece`, but
before placing the mover it computes the floor-division midpoint of `start`
and `end` and clears that square whenever it holds any piece. -/
def checkerMovePieceE (b : Board) (s e : IPos) :
    Except Unit (Bool × Board) := do
  let p? ← getPieceE b s
  match p? with
  | none => pure (false, b)
  | some p => do
    let mvs ← validMovesE p b s
    if e ∈ mvs then do
      let mid : IPos := ((s.1 + e.1).fdiv 2, (s.2 + e.2).fdiv 2)
      let mp ← getPieceE b mid
      let b0 ←
        match mp with
        | some _ => setCellE b mid none
        | none => pure b
      let b1 ← setCellE b0 e (some p)
      let b2 ← setCellE b1 s none
      pure (true, b2)
    else
      pure (false, b)

/-- `MoveHistory.save_state`: append a (deep-copied, i.e. value) snapshot. -/
def saveState (h : List Board) (b : Board) : List Board := h ++ [b]

/-- The `for _ in range(steps): if len(self.history) > 1: self.history.pop()`
loop of `MoveHistory.undo`. -/
def popLoop : Nat → List Board → List Board
  | 0, h => h
  | n + 1, h => popLoop n (if 1 < h.length then h.dropLast else h)

/-- `MoveHistory.undo(steps)`: rejects (returns `none`, history untouched) when
no move was made (`len <= 1`) or when `steps >= len(history)`; otherwise pops
`steps` snapshots and returns (a deep copy of) the new last snapshot together
with the mutated history. -/
def undoHist (steps : Nat) (h : List Board) : Option Board × List Board :=
  if h.length ≤ 1 then (none, h)
  else if h.length ≤ steps then (none, h)
  else
    let h' := popLoop steps h
    (h'.getLast?, h')

/-- `MoveHint.set_hints(piece, valid_moves)` followed by
`MoveHint.get_hint(position)`: the stored mapping sends every destination in
`valid_moves` to `'x'` when the `piece` argument is truthy (a non-null piece)
and to `'.'` when it is `None`; other squares have no hint. -/
def setHints (piece : Option Piece) (validMoves : List IPos) :
    IPos → Option Char :=
  fun m =>
    if m ∈ validMoves then some (if piece.isSome then 'x' else '.') else none

/-- The row-major square scan `for x in range(8): for y in range(8)` used by
`ThreatDetector.detect_threats`. -/
def squaresList : List IPos :=
  ((List.range 8).map
    (fun x => (List.range 8).map (fun y => ((x : Int), (y : Int))))).flatten

/-- One pass of the king-locating scan of `ThreatDetector.detect_threats`:
the variable keeps being overwritten, so the scan ends at the *last* matching
square of the scanned list. -/
def findKingAux (b : Board) (turn : Color) :
    List IPos → Option IPos → Option IPos
  | [], acc => acc
  | s :: rest, acc =>
    findKingAux b turn rest
      (match boardAt b s with
       | some p =>
         if p.kind = Kind.king ∧ p.color = turn then some s else acc
       | none => acc)

/-- The king-locating scan over the full board, starting from `None`. -/
def findKing (b : Board) (turn : Color) : Option IPos :=
  findKingAux b turn squaresList none

/-- The `threatened_positions` update of one inner-loop iteration of
`detect_threats`: the destination is added (set semantics) when the fetched
target piece has the scanned side's color. -/
def threatAdd (turn : Color) (ts : List IPos) (m : IPos)
    (tp : Option Piece) : List IPos :=
  match tp with
  | some q =>
    if q.color = turn then (if m ∈ ts then ts else ts ++ [m]) else ts
  | none => ts

/-- The inner `for move in piece.valid_moves(...)` loop of `detect_threats`:
for each generated destination, `get_piece(move)` (unguarded, so Python
wrap-around indexing applies) is consulted; a hit of the scanned side's color
adds the destination to the threatened set, and equality with the king square
raises the check flag. -/
def threatMoves (b : Board) (turn : Color) (kp : Option IPos) :
    List IPos → List IPos × Bool → Except Unit (List IPos × Bool)
  | [], st => .ok st
  | m :: rest, st =>
    match getPieceE b m with
    | .error e => .error e
    | .ok tp =>
      threatMoves b turn kp rest
        (threatAdd turn st.1 m tp, st.2 || decide (kp = some m))

/-- The outer square scan of `detect_threats`: every piece of the opposite
color generates its moves, which feed `threatMoves`. -/
def threatSquares (b : Board) (turn : Color) (kp : Option IPos) :
    List IPos → List IPos × Bool → Except Unit (List IPos × Bool)
  | [], st => .ok st
  | s :: rest, st =>
    match boardAt b s with
    | some p =>
      if p.color ≠ turn then
        match validMovesE p b s with
        | .error e => .error e
        | .ok mvs =>
          match threatMoves b turn kp mvs st with
          | .error e => .error e
          | .ok st1 => threatSquares b turn kp rest st1
      else threatSquares b turn kp rest st
    | none => threatSquares b turn kp rest st

/-- `ThreatDetector.detect_threats(board, current_turn)`: locate the king,
then scan all opposing pieces; the result is the pair
(`threatened_positions` as a duplicate-free list, `is_check`). -/
def detectThreatsE (b : Board) (turn : Color) :
    Except Unit (List IPos × Bool) :=
  threatSquares b turn (findKing b turn) squaresList ([], false)

/-- The game mode strings `'classic'`, `'modified'`, `'checkers'`. -/
inductive Mode where
  | classic
  | modified
  | checkers
deriving DecidableEq, Repr

/-- A bounds-safe cell write used only to model the board *setup* loops, whose
indices are literal in-range constants. -/
def setCellN (b : Board) (x y : Nat) (v : Option Piece) : Board :=
  match b[x]? with
  | some row => b.set x (row.set y v)
  | none => b

/-- `ChessBoard.add_custom_pieces`. -/
def addCustomPieces (b : Board) : Board :=
  setCellN (setCellN (setCellN (setCellN (setCellN (setCellN b
    0 0 (some ⟨.archer, .black⟩))
    7 0 (some ⟨.archer, .white⟩))
    0 5 (some ⟨.striker, .black⟩))
    7 5 (some ⟨.striker, .white⟩))
    0 3 (some ⟨.oracle, .black⟩))
    7 3 (some ⟨.oracle, .white⟩)

/-- `ChessBoard.setup_board` (after `__init__` made the empty 8x8 grid):
pawn ranks, back ranks, and the custom pieces only in `'modified'` mode. -/
def setupChess (mode : Mode) : Board :=
  let b := (List.range 8).foldl
    (fun b i =>
      setCellN (setCellN b 1 i (some ⟨.pawn, .black⟩))
        6 i (some ⟨.pawn, .white⟩))
    emptyBoard
  let backRow : List Kind :=
    [.rook, .knight, .bishop, .queen, .king, .bishop, .knight, .rook]
  let b := backRow.enum.foldl
    (fun b ik =>
      setCellN (setCellN b 0 ik.1 (some ⟨ik.2, .black⟩))
        7 ik.1 (some ⟨ik.2, .white⟩))
    b
  if mode = Mode.modified then addCustomPieces b else b

/-- `CheckerBoard.setup_board`: `for j in range(i % 2, 8, 2)` fills the squares
with `j % 2 == i % 2`; rows 0-2 black, rows 5-7 white. -/
def setupCheckers : Board :=
  (List.range 8).foldl
    (fun b i =>
      (List.range 8).foldl
        (fun b j =>
          if j % 2 = i % 2 then
            if i < 3 then setCellN b i j (some ⟨.checker, .black⟩)
            else if 4 < i then setCellN b i j (some ⟨.checker, .white⟩)
            else b
          else b)
        b)
    emptyBoard

/-- The state a game session holds right after construction: its live board
and its `MoveHistory`. -/
structure GameState where
  board : Board
  history : List Board
deriving DecidableEq, Repr

/-- `ChessGame.__init__(mode)`: build the chess board for `mode` and save it
as the first history snapshot. -/
def chessGameInit (mode : Mode) : GameState :=
  let b := setupChess mode
  { board := b, history := saveState [] b }

/-- `CheckerGame.__init__(mode)`: run the parent constructor (which builds and
saves a *chess* board), then replace only the live board with the checkers
board. -/
def checkerGameInit (mode : Mode) : GameState :=
  let g := chessGameInit mode
  { g with board := setupCheckers }

/-! ### Concrete boards used by the theorems -/

/-- The classical initial chess board. -/
def chessInitB : Board := setupChess Mode.classic

/-- A board holding only a white pawn at `(0, 3)` and a black knight at
`(7, 2)`: the pawn stands on the last rank of its movement direction. -/
def pawnEdgeBoard : Board :=
  [[none, none, none, some ⟨.pawn, .white⟩, none, none, none, none],
   List.replicate 8 none, List.replicate 8 none, List.replicate 8 none,
   List.replicate 8 none, List.replicate 8 none, List.replicate 8 none,
   [none, none, some ⟨.knight, .black⟩, none, none, none, none, none]]

/-- A checkers position: a white man at `(5, 2)`, a black man at `(4, 2)`,
and the single-step destination `(4, 3)` empty. -/
def checkerBugBoard : Board :=
  [List.replicate 8 none, List.replicate 8 none, List.replicate 8 none,
   List.replicate 8 none,
   [none, none, some ⟨.checker, .black⟩, none, none, none, none, none],
   [none, none, some ⟨.checker, .white⟩, none, none, none, none, none],
   List.replicate 8 none, List.replicate 8 none]

/-- The board `CheckerBoard.move_piece` actually produces from
`checkerBugBoard` for the single step `(5, 2) → (4, 3)`: the bystander at
`(4, 2)` is gone. -/
def checkerBugBoardAfter : Board :=
  [List.replicate 8 none, List.replicate 8 none, List.replicate 8 none,
   List.replicate 8 none,
   [none, none, none, some ⟨.checker, .white⟩, none, none, none, none],
   List.replicate 8 none, List.replicate 8 none, List.replicate 8 none]

/-! ### C1 -/

/-- C1 (code bug): on the checkers board `checkerBugBoard`, the *plain single
diagonal step* `(5, 2) → (4, 3)` succeeds, yet it erases the unrelated piece
at `(4, 2)` — the floor-division "midpoint" of start and end, which for this
non-jump move is neither `start` nor `end` nor a jumped-over square.  The
spec requires a successful single-step move to change only `start` and `end`;
the code's own comment says the removal is meant for captured pieces on jump
moves.  This theorem evaluates the code at the failing input. -/
theorem c1_single_step_erases_bystander :
    checkerMovePieceE checkerBugBoard (5, 2) (4, 3) =
      .ok (true, checkerBugBoardAfter) ∧
    boardAt checkerBugBoard (4, 2) = some ⟨Kind.checker, Color.black⟩ ∧
    boardAt checkerBugBoardAfter (4, 2) = none ∧
    ((4, 2) : IPos) ≠ (5, 2) ∧ ((4, 2) : IPos) ≠ (4, 3) := by
  decide

/-! ### C9 -/

/-- C9 (confirmed): there is a board and a pawn position — the white pawn on
row 0 of `pawnEdgeBoard` — for which `Pawn.valid_moves` returns without error
yet contains destinations with row `-1`, outside the 8x8 board; the forward
and diagonal generation guards only the column, and `get_piece` at row `-1`
silently reads row 7 (the opposite edge) instead of rejecting the square. -/
theorem c9_pawn_offboard_destinations :
    pawnMovesE pawnEdgeBoard Color.white (0, 3) =
      .ok [(-1, 3), (-1, 2)] ∧
    ¬ onBoard (-1, 3) ∧ ¬ onBoard (-1, 2) ∧
    getPieceE pawnEdgeBoard (-1, 3) = .ok (boardAt pawnEdgeBoard (7, 3)) ∧
    getPieceE pawnEdgeBoard (-1, 2) = .ok (boardAt pawnEdgeBoard (7, 2)) ∧
    boardAt pawnEdgeBoard (7, 2) = some ⟨Kind.knight, Color.black⟩ := by
  decide

/-! ### C10 -/

/-- C10 (confirmed): `CheckerGame.__init__` first runs the parent constructor,
so the only history snapshot of a new checkers game is the full classical
chess layout (mode `'checkers'` sets up exactly the classical pieces), while
the live board is then replaced by the checkers board; the checkers starting
position itself is never saved, and undoing the only move of a one-move
checkers game returns the chess layout. -/
theorem c10_checker_history_is_chess :
    (checkerGameInit Mode.checkers).history = [setupChess Mode.checkers] ∧
    setupChess Mode.checkers = setupChess Mode.classic ∧
    (checkerGameInit Mode.checkers).board = setupCheckers ∧
    setupChess Mode.classic ≠ setupCheckers ∧
    boardAt (setupChess Mode.classic) (7, 4) = some ⟨Kind.king, Color.white⟩ ∧
    boardAt setupCheckers (7, 4) = none ∧
    ∀ b : Board,
      undoHist 1 (saveState (checkerGameInit Mode.checkers).history b) =
        (some (setupChess Mode.classic),
          (checkerGameInit Mode.checkers).history) := by
  have hec : setupChess Mode.checkers = setupChess Mode.classic := by decide
  refine ⟨by decide, hec, by decide, by decide, by decide, by decide,
    fun b => ?_⟩
  show undoHist 1 [setupChess Mode.checkers, b] =
    (some (setupChess Mode.classic), [setupChess Mode.checkers])
  rw [undoHist]
  simp [popLoop, hec]

/-! ### C5 / C7: the ray walk -/

/-- The square reached after `i` steps of direction `d` from `pos`. -/
def stepSq (pos d : IPos) (i : Int) : IPos :=
  (pos.1 + i * d.1, pos.2 + i * d.2)

/-- Zero steps stay in place. -/
theorem stepSq_zero (pos d : IPos) : stepSq pos d 0 = pos := by
  simp [stepSq]

/-- One step of `d` is the successor square used by the walks. -/
theorem stepSq_one (pos d : IPos) :
    stepSq pos d 1 = (pos.1 + d.1, pos.2 + d.2) := by
  simp [stepSq]

/-- Re-basing a step count at the successor square. -/
theorem stepSq_shift (pos d : IPos) (i : Int) :
    stepSq pos d i = stepSq (pos.1 + d.1, pos.2 + d.2) d (i - 1) := by
  simp only [stepSq, Prod.ext_iff]
  constructor <;> ring

/-- For a nonzero direction, distinct step counts reach distinct squares. -/
theorem stepSq_inj {d : IPos} (hd : d ≠ (0, 0)) {pos : IPos} {i j : Int}
    (h : stepSq pos d i = stepSq pos d j) : i = j := by
  rw [Prod.ext_iff] at h
  simp only [stepSq] at h
  have h1 : i * d.1 = j * d.1 := by
    have := h.1; omega
  have h2 : i * d.2 = j * d.2 := by
    have := h.2; omega
  have hd' : d.1 ≠ 0 ∨ d.2 ≠ 0 := by
    by_contra hc
    push_neg at hc
    exact hd (Prod.ext_iff.mpr ⟨hc.1, hc.2⟩)
  rcases hd' with h | h
  · exact mul_right_cancel₀ h h1
  · exact mul_right_cancel₀ h h2

/-- For a nonzero direction, no positive step count returns to the start. -/
theorem stepSq_ne_self {d : IPos} (hd : d ≠ (0, 0)) {pos : IPos} {i : Int}
    (hi : 1 ≤ i) : stepSq pos d i ≠ pos := by
  intro h
  have := stepSq_inj hd (h.trans (stepSq_zero pos d).symm)
  omega

/-- Every square the walk emits is `stepSq pos d i` for some step count
`1 ≤ i ≤ fuel`. -/
theorem getLinearDir_mem_exists (b : Board) (c : Color) (d : IPos) :
    ∀ (fuel : Nat) (pos q : IPos), q ∈ getLinearDir b c pos d fuel →
      ∃ i : Int, 1 ≤ i ∧ i ≤ fuel ∧ q = stepSq pos d i := by
  intro fuel
  induction fuel with
  | zero => intro pos q hq; simp [getLinearDir] at hq
  | succ n ih =>
    intro pos q hq
    rw [getLinearDir] at hq
    by_cases hob : onBoard (pos.1 + d.1, pos.2 + d.2)
    · rw [if_pos hob] at hq
      cases hba : boardAt b (pos.1 + d.1, pos.2 + d.2) with
      | some p =>
        rw [hba] at hq
        dsimp only at hq
        by_cases hpc : p.color ≠ c
        · rw [if_pos hpc] at hq
          refine ⟨1, le_refl 1, by omega, ?_⟩
          rw [stepSq_one]
          simpa using hq
        · rw [if_neg hpc] at hq
          simp at hq
      | none =>
        rw [hba] at hq
        dsimp only at hq
        rcases List.mem_cons.mp hq with heq | hmem
        · exact ⟨1, le_refl 1, by omega, by rw [stepSq_one]; exact heq⟩
        · obtain ⟨i, hi1, hi2, heq⟩ := ih _ _ hmem
          refine ⟨i + 1, by omega, by omega, ?_⟩
          rw [stepSq_shift pos d (i + 1)]
          simpa using heq
    · rw [if_neg hob] at hq
      simp at hq

/-- The list the walk emits has no duplicates: within one direction the step
counts of the emitted squares are strictly increasing. -/
theorem getLinearDir_nodup (b : Board) (c : Color) (d : IPos)
    (hd : d ≠ (0, 0)) :
    ∀ (fuel : Nat) (pos : IPos), (getLinearDir b c pos d fuel).Nodup := by
  intro fuel
  induction fuel with
  | zero => intro pos; simp [getLinearDir]
  | succ n ih =>
    intro pos
    rw [getLinearDir]
    by_cases hob : onBoard (pos.1 + d.1, pos.2 + d.2)
    · rw [if_pos hob]
      cases hba : boardAt b (pos.1 + d.1, pos.2 + d.2) with
      | some p =>
        dsimp only
        by_cases hpc : p.color ≠ c
        · rw [if_pos hpc]; exact List.nodup_singleton _
        · rw [if_neg hpc]; exact List.nodup_nil
      | none =>
        dsimp only
        refine List.nodup_cons.mpr ⟨?_, ih _⟩
        intro hmem
        obtain ⟨i, hi1, _, heq⟩ := getLinearDir_mem_exists b c d n _ _ hmem
        exact stepSq_ne_self hd hi1 heq.symm
    · rw [if_neg hob]; exact List.nodup_nil

/-- The full characterisation of one direction of
`ChessBoard.get_linear_moves`: the square `i ≥ 1` steps out is emitted iff
every strictly earlier step square is on the board and empty, and the step-`i`
square itself is on the board and either empty or holds the opposite color. -/
theorem getLinearDir_mem_iff (b : Board) (c : Color) (d : IPos)
    (hd : d ≠ (0, 0)) :
    ∀ (fuel : Nat) (pos : IPos) (i : Int), 1 ≤ i → i ≤ fuel →
      (stepSq pos d i ∈ getLinearDir b c pos d fuel ↔
        ((∀ j, 1 ≤ j → j < i →
            onBoard (stepSq pos d j) ∧ boardAt b (stepSq pos d j) = none) ∧
         onBoard (stepSq pos d i) ∧
         (boardAt b (stepSq pos d i) = none ∨
          ∃ p, boardAt b (stepSq pos d i) = some p ∧ p.color ≠ c))) := by
  intro fuel
  induction fuel with
  | zero => intro pos i h1 h2; omega
  | succ n ih =>
    intro pos i hi1 hi2
    rw [getLinearDir]
    by_cases hob : onBoard (pos.1 + d.1, pos.2 + d.2)
    · rw [if_pos hob]
      cases hba : boardAt b (pos.1 + d.1, pos.2 + d.2) with
      | some p =>
        dsimp only
        by_cases hpc : p.color ≠ c
        · rw [if_pos hpc]
          constructor
          · intro hm
            have heq : stepSq pos d i = (pos.1 + d.1, pos.2 + d.2) := by
              simpa using hm
            have hieq : i = 1 :=
              stepSq_inj hd (heq.trans (stepSq_one pos d).symm)
            subst hieq
            rw [stepSq_one]
            exact ⟨fun j hj1 hj2 => absurd hj2 (by omega), hob,
              Or.inr ⟨p, hba, hpc⟩⟩
          · rintro ⟨hall, hon, _⟩
            by_cases hieq : i = 1
            · subst hieq
              rw [stepSq_one]
              exact List.mem_singleton.mpr rfl
            · exfalso
              have h1 := (hall 1 (le_refl 1) (by omega)).2
              rw [stepSq_one] at h1
              rw [h1] at hba
              exact Option.noConfusion hba
        · rw [if_neg hpc]
          constructor
          · intro hm; simp at hm
          · rintro ⟨hall, hon, hocc⟩
            exfalso
            by_cases hieq : i = 1
            · subst hieq
              rw [stepSq_one] at hocc
              rcases hocc with h | ⟨p', hp', hc'⟩
              · rw [h] at hba; exact Option.noConfusion hba
              · rw [hp'] at hba
                exact hpc (Option.some.inj hba ▸ hc')
            · have h1 := (hall 1 (le_refl 1) (by omega)).2
              rw [stepSq_one] at h1
              rw [h1] at hba
              exact Option.noConfusion hba
      | none =>
        dsimp only
        constructor
        · intro hm
          rcases List.mem_cons.mp hm with heq | hmem
          · have hieq : i = 1 :=
              stepSq_inj hd (heq.trans (stepSq_one pos d).symm)
            subst hieq
            rw [stepSq_one]
            exact ⟨fun j hj1 hj2 => absurd hj2 (by omega), hob, Or.inl hba⟩
          · by_cases hieq : i = 1
            · exfalso
              obtain ⟨i', hi1', _, heq'⟩ :=
                getLinearDir_mem_exists b c d n _ _ hmem
              subst hieq
              rw [stepSq_one] at heq'
              exact stepSq_ne_self hd hi1' heq'.symm
            · have hmem' :
                  stepSq (pos.1 + d.1, pos.2 + d.2) d (i - 1) ∈
                    getLinearDir b c (pos.1 + d.1, pos.2 + d.2) d n := by
                rw [← stepSq_shift]; exact hmem
              have hr := (ih (pos.1 + d.1, pos.2 + d.2) (i - 1)
                (by omega) (by omega)).mp hmem'
              obtain ⟨hall', hon', hocc'⟩ := hr
              refine ⟨?_, ?_, ?_⟩
              · intro j hj1 hj2
                by_cases hjeq : j = 1
                · subst hjeq; rw [stepSq_one]; exact ⟨hob, hba⟩
                · have := hall' (j - 1) (by omega) (by omega)
                  rwa [← stepSq_shift] at this
              · rwa [← stepSq_shift] at hon'
              · rwa [← stepSq_shift] at hocc'
        · rintro ⟨hall, hon, hocc⟩
          by_cases hieq : i = 1
          · subst hieq
            rw [stepSq_one]
            exact List.mem_cons_self _ _
          · apply List.mem_cons_of_mem
            have hgoal :
                stepSq (pos.1 + d.1, pos.2 + d.2) d (i - 1) ∈
                  getLinearDir b c (pos.1 + d.1, pos.2 + d.2) d n := by
              apply (ih (pos.1 + d.1, pos.2 + d.2) (i - 1)
                (by omega) (by omega)).mpr
              refine ⟨?_, ?_, ?_⟩
              · intro j hj1 hj2
                have := hall (j + 1) (by omega) (by omega)
                rw [stepSq_shift pos d (j + 1)] at this
                simpa using this
              · rw [← stepSq_shift]; exact hon
              · rw [← stepSq_shift]; exact hocc
            rw [stepSq_shift pos d i]
            exact hgoal
    · rw [if_neg hob]
      constructor
      · intro hm; simp at hm
      · rintro ⟨hall, hon, _⟩
        exfalso
        by_cases hieq : i = 1
        · subst hieq; rw [stepSq_one] at hon; exact hob hon
        · have h1 := (hall 1 (le_refl 1) (by omega)).1
          rw [stepSq_one] at h1
          exact hob h1

/-- The eight ray-scan directions of Rook and Bishop (Queen uses both). -/
def linearDirs : List IPos := rookDirs ++ bishopDirs

/-- Two *distinct* ray-scan directions never reach the same square with
positive step counts. -/
theorem stepSq_cross {d e : IPos} (hdm : d ∈ linearDirs)
    (hem : e ∈ linearDirs) (hne : d ≠ e) (pos : IPos) {i j : Int}
    (hi : 1 ≤ i) (hj : 1 ≤ j) : stepSq pos d i ≠ stepSq pos e j := by
  intro h
  rw [Prod.ext_iff] at h
  simp only [stepSq] at h
  obtain ⟨h1, h2⟩ := h
  have hd8 : d = (1, 0) ∨ d = (-1, 0) ∨ d = (0, 1) ∨ d = (0, -1) ∨
      d = (1, 1) ∨ d = (-1, -1) ∨ d = (1, -1) ∨ d = (-1, 1) := by
    simpa [linearDirs, rookDirs, bishopDirs] using hdm
  have he8 : e = (1, 0) ∨ e = (-1, 0) ∨ e = (0, 1) ∨ e = (0, -1) ∨
      e = (1, 1) ∨ e = (-1, -1) ∨ e = (1, -1) ∨ e = (-1, 1) := by
    simpa [linearDirs, rookDirs, bishopDirs] using hem
  rcases hd8 with rfl | rfl | rfl | rfl | rfl | rfl | rfl | rfl <;>
    rcases he8 with rfl | rfl | rfl | rfl | rfl | rfl | rfl | rfl <;>
      first
        | exact hne rfl
        | (simp only [mul_one, mul_neg_one, mul_zero] at h1 h2; omega)

/-- The concatenation of the per-direction walks over a duplicate-free list of
ray-scan directions has no duplicates. -/
theorem nodup_flatten_rays (b : Board) (c : Color) (pos : IPos) :
    ∀ dirs : List IPos, dirs.Nodup → (∀ d ∈ dirs, d ∈ linearDirs) →
      ((dirs.map (fun d => getLinearDir b c pos d 8)).flatten).Nodup := by
  intro dirs
  induction dirs with
  | nil => intro _ _; simp
  | cons d rest ih =>
    intro hnd hsub
    have hdl : d ∈ linearDirs := hsub d (List.mem_cons_self d rest)
    have hd0 : d ≠ (0, 0) := by
      intro h
      rw [h] at hdl
      revert hdl
      decide
    simp only [List.map_cons, List.flatten_cons]
    rw [List.nodup_append]
    refine ⟨getLinearDir_nodup b c d hd0 8 pos,
      ih (List.nodup_cons.mp hnd).2
        (fun d' hd' => hsub d' (List.mem_cons_of_mem d hd')), ?_⟩
    intro q hq hq'
    obtain ⟨l, hl, hql⟩ := List.mem_flatten.mp hq'
    obtain ⟨d', hd'r, rfl⟩ := List.mem_map.mp hl
    have hne : d ≠ d' := fun h =>
      (List.nodup_cons.mp hnd).1 (h ▸ hd'r)
    obtain ⟨i, hi1, _, rfl⟩ :=
      getLinearDir_mem_exists b c d 8 pos q hq
    obtain ⟨j, hj1, _, heq⟩ :=
      getLinearDir_mem_exists b c d' 8 pos _ hql
    exact stepSq_cross hdl (hsub d' (List.mem_cons_of_mem d hd'r)) hne pos
      hi1 hj1 heq

/-- C5 (confirmed): for any board, color, on-board start square and ray-scan
direction, the square `i ≥ 1` steps out appears in the walk's output iff all
strictly earlier squares of the ray are on the board and empty, and the
step-`i` square is on the board and is either empty or holds a piece of the
opposite color — so nothing beyond the first occupied square is produced,
every empty square strictly before it is produced, and the first occupied
square itself is produced iff it holds the opposite color.  Every produced
square is some `stepSq pos d i` with `i ≥ 1`, so this characterises the whole
output. -/
theorem c5_ray_first_blocker (b : Board) (c : Color) (pos d : IPos) (i : Int)
    (hpos : onBoard pos) (hd : d ∈ linearDirs) (hi : 1 ≤ i) :
    (stepSq pos d i ∈ getLinearDir b c pos d 8 ↔
      ((∀ j, 1 ≤ j → j < i →
          onBoard (stepSq pos d j) ∧ boardAt b (stepSq pos d j) = none) ∧
       onBoard (stepSq pos d i) ∧
       (boardAt b (stepSq pos d i) = none ∨
        ∃ p, boardAt b (stepSq pos d i) = some p ∧ p.color ≠ c))) ∧
    (∀ q, q ∈ getLinearDir b c pos d 8 →
      ∃ k : Int, 1 ≤ k ∧ q = stepSq pos d k) := by
  have hd8 : d = (1, 0) ∨ d = (-1, 0) ∨ d = (0, 1) ∨ d = (0, -1) ∨
      d = (1, 1) ∨ d = (-1, -1) ∨ d = (1, -1) ∨ d = (-1, 1) := by
    simpa [linearDirs, rookDirs, bishopDirs] using hd
  have hd0 : d ≠ (0, 0) := by
    rcases hd8 with rfl | rfl | rfl | rfl | rfl | rfl | rfl | rfl <;> decide
  constructor
  · constructor
    · intro hm
      obtain ⟨i', hi1', hi2', heq⟩ :=
        getLinearDir_mem_exists b c d 8 pos _ hm
      have hii : i = i' := stepSq_inj hd0 heq
      exact (getLinearDir_mem_iff b c d hd0 8 pos i hi (by omega)).mp hm
    · rintro ⟨hall, hon, hocc⟩
      have hle : i ≤ 8 := by
        obtain ⟨hp1, hp2, hp3, hp4⟩ := hpos
        rcases hd8 with rfl | rfl | rfl | rfl | rfl | rfl | rfl | rfl <;>
          · obtain ⟨h1, h2, h3, h4⟩ := hon
            simp only [stepSq, mul_one, mul_neg_one, mul_zero,
              add_zero] at h1 h2 h3 h4
            omega
      exact (getLinearDir_mem_iff b c d hd0 8 pos i hi hle).mpr
        ⟨hall, hon, hocc⟩
  · intro q hq
    obtain ⟨k, hk1, _, hkeq⟩ := getLinearDir_mem_exists b c d 8 pos q hq
    exact ⟨k, hk1, hkeq⟩

/-- A board holding only a white rook at `(4, 4)` and a black pawn at
`(4, 6)`, used to witness the ray characterisation. -/
def rayWitnessBoard : Board :=
  [List.replicate 8 none, List.replicate 8 none, List.replicate 8 none,
   List.replicate 8 none,
   [none, none, none, none, some ⟨.rook, .white⟩, none,
    some ⟨.pawn, .black⟩, none],
   List.replicate 8 none, List.replicate 8 none, List.replicate 8 none]

/-- Witness for `c5_ray_first_blocker`: from `(4, 4)` eastwards, the enemy
pawn two steps out (the first occupied square) is produced. -/
theorem c5_ray_first_blocker_witness :
    stepSq (4, 4) (0, 1) 2 ∈
      getLinearDir rayWitnessBoard Color.white (4, 4) (0, 1) 8 := by
  apply (c5_ray_first_blocker rayWitnessBoard Color.white (4, 4) (0, 1) 2
    (by decide) (by decide) (by decide)).1.mpr
  refine ⟨?_, by decide,
    Or.inr ⟨⟨Kind.pawn, Color.black⟩, by decide, by decide⟩⟩
  intro j hj1 hj2
  have hj : j = 1 := by omega
  subst hj
  exact ⟨by decide, by decide⟩

/-- C7 (confirmed): `Queen.valid_moves` is literally the Rook list followed by
the Bishop list, so its members are exactly the union of the two, and since
the eight underlying rays are pairwise disjoint and individually
duplicate-free, the Queen list contains no duplicate squares. -/
theorem c7_queen_is_rook_union_bishop (b : Board) (c : Color) (pos : IPos) :
    (∀ q, q ∈ queenMoves b c pos ↔
      q ∈ rookMoves b c pos ∨ q ∈ bishopMoves b c pos) ∧
    (queenMoves b c pos).Nodup := by
  constructor
  · intro q
    exact List.mem_append
  · have hrw : queenMoves b c pos =
        (linearDirs.map (fun d => getLinearDir b c pos d 8)).flatten := by
      simp [queenMoves, rookMoves, bishopMoves, getLinearMoves, linearDirs,
        List.map_append, List.flatten_append]
    rw [hrw]
    exact nodup_flatten_rays b c pos linearDirs (by decide) (fun d hd => hd)

/-! ### C3 -/

/-- As long as the pop count stays below the history length, the guarded pop
loop of `MoveHistory.undo` just drops that many snapshots from the end. -/
theorem popLoop_eq_take :
    ∀ (n : Nat) (h : List Board), n < h.length →
      popLoop n h = h.take (h.length - n)
  | 0, h, _ => by simp [popLoop]
  | n + 1, h, hlt => by
    have h1 : 1 < h.length := by omega
    have h2 : n < h.dropLast.length := by
      rw [List.length_dropLast]; omega
    have h3 : h.dropLast.take (h.dropLast.length - n) =
        h.take (h.length - (n + 1)) := by
      rw [List.length_dropLast, List.dropLast_eq_take, List.take_take]
      congr 1
      omega
    rw [popLoop, if_pos h1, popLoop_eq_take n _ h2, h3]

/-- C3 (confirmed): with the history `[b0, …, bN]` built by saving the initial
board and then each of N successful moves, `undo(k)` for `1 ≤ k ≤ N`
(i.e. `k < length`) pops `k` snapshots and returns the board that existed
exactly `k` moves earlier (index `N - k = length - 1 - k`), while `undo(k)`
for `k ≥ N + 1` (i.e. `length ≤ k`, which also covers the
"no move was made yet" case `length = 1`) returns the cannot-undo signal
`none` and leaves the stored history unchanged. -/
theorem c3_undo_restores_kth_earlier (h : List Board) (k : Nat) :
    (1 ≤ k → k < h.length →
      (undoHist k h).1 = h[h.length - 1 - k]? ∧
      (undoHist k h).2 = h.take (h.length - k)) ∧
    (h.length ≤ k → undoHist k h = (none, h)) := by
  constructor
  · intro hk1 hk2
    have hl1 : ¬ h.length ≤ 1 := by omega
    have hl2 : ¬ h.length ≤ k := by omega
    rw [undoHist, if_neg hl1, if_neg hl2]
    simp only [popLoop_eq_take k h hk2]
    refine ⟨?_, trivial⟩
    rw [List.getLast?_eq_getElem?, List.length_take]
    have hmin : min (h.length - k) h.length = h.length - k := by omega
    rw [hmin, List.getElem?_take_of_lt (by omega)]
    congr 1
    omega
  · intro hk
    rw [undoHist]
    by_cases h1 : h.length ≤ 1
    · rw [if_pos h1]
    · rw [if_neg h1, if_pos hk]

/-- Witness for `c3_undo_restores_kth_earlier` on a concrete 2-move history:
undoing 2 of the 2 moves returns the initial snapshot, and undoing 3 is
rejected without mutation. -/
theorem c3_undo_restores_kth_earlier_witness :
    (undoHist 2 [emptyBoard, setupCheckers, chessInitB]).1 =
      some emptyBoard ∧
    undoHist 3 [emptyBoard, setupCheckers, chessInitB] =
      (none, [emptyBoard, setupCheckers, chessInitB]) := by
  constructor
  · have h :=
      ((c3_undo_restores_kth_earlier [emptyBoard, setupCheckers, chessInitB]
        2).1 (by decide) (by decide)).1
    exact h.trans (by decide)
  · exact
      (c3_undo_restores_kth_earlier [emptyBoard, setupCheckers, chessInitB]
        3).2 (by decide)

/-! ### C6 -/

/-- On a well-formed board, the unguarded `get_piece` at an on-board square
returns exactly the square's true content. -/
theorem getPieceE_eq_boardAt (b : Board) (hwf : BoardWF b) (p : IPos)
    (hp : onBoard p) : getPieceE b p = .ok (boardAt b p) := by
  obtain ⟨hp1, hp2, hp3, hp4⟩ := hp
  obtain ⟨hlen, hrows⟩ := hwf
  have hx : p.1.toNat < b.length := by omega
  have hrowe : b[p.1.toNat]? = some b[p.1.toNat] := List.getElem?_eq_getElem hx
  have hrlen : b[p.1.toNat].length = 8 := hrows _ (List.getElem_mem hx)
  have hy : p.2.toNat < b[p.1.toNat].length := by omega
  have hcelle : b[p.1.toNat][p.2.toNat]? = some b[p.1.toNat][p.2.toNat] :=
    List.getElem?_eq_getElem hy
  have hpg1 : pyGet b p.1 = some b[p.1.toNat] := by
    rw [pyGet, if_pos hp1, if_pos (by omega : p.1 < (b.length : Int))]
    exact hrowe
  have hpg2 : pyGet b[p.1.toNat] p.2 = some b[p.1.toNat][p.2.toNat] := by
    rw [pyGet, if_pos hp3,
      if_pos (by omega : p.2 < (b[p.1.toNat].length : Int))]
    exact hcelle
  rw [getPieceE, hpg1]
  dsimp only
  rw [hpg2]
  dsimp only
  rw [boardAt, if_pos ⟨hp1, hp2, hp3, hp4⟩, hrowe]
  dsimp only
  rw [hcelle]

/-- The list `pawnForwardE` yields when nothing raises, phrased over the true
board content (proof scaffolding for the pawn lemmas). -/
def pawnForwardList (b : Board) (c : Color) (pos : IPos) : List IPos :=
  match boardAt b (pos.1 + pawnDir c, pos.2) with
  | some _ => []
  | none =>
    if pos.1 = pawnStartRow c then
      match boardAt b (pos.1 + 2 * pawnDir c, pos.2) with
      | none =>
        [(pos.1 + pawnDir c, pos.2), (pos.1 + 2 * pawnDir c, pos.2)]
      | some _ => [(pos.1 + pawnDir c, pos.2)]
    else [(pos.1 + pawnDir c, pos.2)]

/-- The list `pawnDiagE` yields when nothing raises, phrased over the true
board content (proof scaffolding for the pawn lemmas). -/
def pawnDiagList (b : Board) (c : Color) (pos : IPos) (dy : Int) :
    List IPos :=
  if 0 ≤ pos.2 + dy ∧ pos.2 + dy < 8 then
    match boardAt b (pos.1 + pawnDir c, pos.2 + dy) with
    | some q => if q.color ≠ c then [(pos.1 + pawnDir c, pos.2 + dy)] else []
    | none => []
  else []

/-- When the forward row is on the board, the diagonal computation cannot
raise and computes `pawnDiagList`. -/
theorem pawnDiagE_eval (b : Board) (c : Color) (pos : IPos) (dy : Int)
    (hwf : BoardWF b) (hr1 : 0 ≤ pos.1 + pawnDir c)
    (hr2 : pos.1 + pawnDir c < 8) :
    pawnDiagE b c pos dy = .ok (pawnDiagList b c pos dy) := by
  rw [pawnDiagE, pawnDiagList]
  by_cases hb : 0 ≤ pos.2 + dy ∧ pos.2 + dy < 8
  · rw [if_pos hb, if_pos hb,
      getPieceE_eq_boardAt b hwf _ ⟨hr1, hr2, hb.1, hb.2⟩]
    dsimp only
    cases boardAt b (pos.1 + pawnDir c, pos.2 + dy) <;> rfl
  · rw [if_neg hb, if_neg hb]

/-- When the pawn's column is on the board, the forward computation applied
to the true forward-square content cannot raise and computes
`pawnForwardList`. -/
theorem pawnForwardE_eval (b : Board) (c : Color) (pos : IPos)
    (hwf : BoardWF b) (hp3 : 0 ≤ pos.2) (hp4 : pos.2 < 8) :
    pawnForwardE b c pos (boardAt b (pos.1 + pawnDir c, pos.2)) =
      .ok (pawnForwardList b c pos) := by
  rw [pawnForwardE.eq_def, pawnForwardList]
  cases hba : boardAt b (pos.1 + pawnDir c, pos.2) with
  | some p => rfl
  | none =>
    dsimp only
    by_cases hsr : pos.1 = pawnStartRow c
    · rw [if_pos hsr, if_pos hsr]
      have hdon : onBoard (pos.1 + 2 * pawnDir c, pos.2) := by
        refine ⟨?_, ?_, hp3, hp4⟩ <;>
          (rw [hsr]; cases c <;> simp [pawnDir, pawnStartRow])
      rw [getPieceE_eq_boardAt b hwf _ hdon]
      dsimp only
      cases boardAt b (pos.1 + 2 * pawnDir c, pos.2) <;> rfl
    · rw [if_neg hsr, if_neg hsr]

/-- For an on-board pawn whose one-step-forward row is also on the board,
`Pawn.valid_moves` succeeds and is the concatenation of the forward section
and the two diagonal sections. -/
theorem pawnMovesE_eval (b : Board) (c : Color) (pos : IPos)
    (hwf : BoardWF b) (hpos : onBoard pos) (hf1 : 0 ≤ pos.1 + pawnDir c)
    (hf2 : pos.1 + pawnDir c < 8) :
    pawnMovesE b c pos =
      .ok (pawnForwardList b c pos ++ pawnDiagList b c pos (-1) ++
        pawnDiagList b c pos 1) := by
  obtain ⟨hp1, hp2, hp3, hp4⟩ := hpos
  rw [pawnMovesE,
    getPieceE_eq_boardAt b hwf (pos.1 + pawnDir c, pos.2)
      ⟨hf1, hf2, hp3, hp4⟩]
  dsimp only
  rw [pawnForwardE_eval b c pos hwf hp3 hp4]
  dsimp only
  rw [pawnDiagE_eval b c pos (-1) hwf hf1 hf2]
  dsimp only
  rw [pawnDiagE_eval b c pos 1 hwf hf1 hf2]

/-- Every square of the forward section sits in the pawn's own column. -/
theorem mem_pawnForwardList (b : Board) (c : Color) (pos : IPos) :
    ∀ m ∈ pawnForwardList b c pos,
      m = (pos.1 + pawnDir c, pos.2) ∨
      m = (pos.1 + 2 * pawnDir c, pos.2) := by
  intro m hm
  rw [pawnForwardList] at hm
  split at hm
  · simp at hm
  · split at hm
    · split at hm
      · rcases List.mem_cons.mp hm with rfl | hm2
        · exact Or.inl rfl
        · exact Or.inr (List.mem_singleton.mp hm2)
      · exact Or.inl (List.mem_singleton.mp hm)
    · exact Or.inl (List.mem_singleton.mp hm)

/-- The only square the `dy` diagonal section can contain. -/
theorem mem_pawnDiagList (b : Board) (c : Color) (pos : IPos) (dy : Int) :
    ∀ m ∈ pawnDiagList b c pos dy,
      m = (pos.1 + pawnDir c, pos.2 + dy) := by
  intro m hm
  rw [pawnDiagList] at hm
  split at hm
  · split at hm
    · split at hm
      · exact List.mem_singleton.mp hm
      · simp at hm
    · simp at hm
  · simp at hm

/-- The double-forward square sits in the forward section iff the pawn is on
its start rank and both forward squares are empty. -/
theorem pawnForwardList_dbl_iff (b : Board) (c : Color) (pos : IPos)
    (hd0 : pawnDir c ≠ 0) :
    ((pos.1 + 2 * pawnDir c, pos.2) ∈ pawnForwardList b c pos ↔
      (pos.1 = pawnStartRow c ∧
       boardAt b (pos.1 + pawnDir c, pos.2) = none ∧
       boardAt b (pos.1 + 2 * pawnDir c, pos.2) = none)) := by
  rw [pawnForwardList]
  cases hba : boardAt b (pos.1 + pawnDir c, pos.2) with
  | some p =>
    dsimp only
    simp
  | none =>
    dsimp only
    by_cases hsr : pos.1 = pawnStartRow c
    · rw [if_pos hsr]
      cases hdb : boardAt b (pos.1 + 2 * pawnDir c, pos.2) with
      | some q =>
        dsimp only
        simp only [List.mem_singleton]
        constructor
        · intro h
          exfalso
          rw [Prod.ext_iff] at h
          have := h.1
          omega
        · rintro ⟨_, _, hq⟩
          exact Option.noConfusion hq
      | none =>
        dsimp only
        constructor
        · intro _
          exact ⟨hsr, rfl, rfl⟩
        · intro _
          exact List.mem_cons_of_mem _ (List.mem_singleton.mpr rfl)
    · rw [if_neg hsr]
      simp only [List.mem_singleton]
      constructor
      · intro h
        exfalso
        rw [Prod.ext_iff] at h
        have := h.1
        omega
      · rintro ⟨h, _, _⟩
        exact absurd h hsr

/-- The capture square of the `dy` diagonal section is offered iff the true
content of that square is an opposing piece (given the column is in range). -/
theorem pawnDiagList_mem_iff (b : Board) (c : Color) (pos : IPos) (dy : Int)
    (hb1 : 0 ≤ pos.2 + dy) (hb2 : pos.2 + dy < 8) :
    ((pos.1 + pawnDir c, pos.2 + dy) ∈ pawnDiagList b c pos dy ↔
      ∃ p, boardAt b (pos.1 + pawnDir c, pos.2 + dy) = some p ∧
        p.color ≠ c) := by
  rw [pawnDiagList, if_pos ⟨hb1, hb2⟩]
  cases hq : boardAt b (pos.1 + pawnDir c, pos.2 + dy) with
  | some q =>
    dsimp only
    by_cases hc : q.color ≠ c
    · rw [if_pos hc]
      exact iff_of_true (List.mem_singleton.mpr rfl) ⟨q, rfl, hc⟩
    · rw [if_neg hc]
      constructor
      · intro h; simp at h
      · rintro ⟨p, hp, hpc⟩
        exact (hc (Option.some.inj hp ▸ hpc)).elim
  | none =>
    dsimp only
    constructor
    · intro h; simp at h
    · rintro ⟨p, hp, _⟩
      exact Option.noConfusion hp

/-- C6 (counterexample): on `pawnEdgeBoard` the white pawn at `(0, 3)` emits
the diagonal-forward destination `(0 + dir, 3 + (-1)) = (-1, 2)` (column in
bounds), yet that square holds *no* piece at all — it is off the board; the
wrap-around read of row 7 saw the black knight.  This refutes the claimed
"appears iff that square holds a piece of the opposing color". -/
theorem c6_diag_iff_fails_at_row_zero :
    pawnMovesE pawnEdgeBoard Color.white (0, 3) = .ok [(-1, 3), (-1, 2)] ∧
    ((0 : Int) + pawnDir Color.white, (3 : Int) + (-1)) = ((-1 : Int), 2) ∧
    boardAt pawnEdgeBoard (-1, 2) = none := by
  decide

/-- C6 (amended): for every well-formed board and every on-board pawn whose
one-step-forward row is also on the board (rows 1–7 for white, 0–6 for black;
this is what the counterexample forces — on the last rank the wrap-around read
breaks the diagonal clause), `Pawn.valid_moves` succeeds; the double-forward
square appears iff the pawn sits on its color's start rank (6 white, 1 black)
with both forward squares empty, and an in-column-range diagonal destination
appears iff that square holds an opposing piece. -/
theorem c6_amended_pawn_move_iffs (b : Board) (c : Color) (pos : IPos)
    (hwf : BoardWF b) (hpos : onBoard pos) (hf1 : 0 ≤ pos.1 + pawnDir c)
    (hf2 : pos.1 + pawnDir c < 8) :
    ∃ L, pawnMovesE b c pos = .ok L ∧
      ((pos.1 + 2 * pawnDir c, pos.2) ∈ L ↔
        (pos.1 = pawnStartRow c ∧
         boardAt b (pos.1 + pawnDir c, pos.2) = none ∧
         boardAt b (pos.1 + 2 * pawnDir c, pos.2) = none)) ∧
      (∀ dy : Int, dy = -1 ∨ dy = 1 → 0 ≤ pos.2 + dy → pos.2 + dy < 8 →
        ((pos.1 + pawnDir c, pos.2 + dy) ∈ L ↔
          ∃ p, boardAt b (pos.1 + pawnDir c, pos.2 + dy) = some p ∧
            p.color ≠ c)) := by
  have hd0 : pawnDir c ≠ 0 := by cases c <;> simp [pawnDir]
  refine ⟨_, pawnMovesE_eval b c pos hwf hpos hf1 hf2, ?_, ?_⟩
  · simp only [List.mem_append]
    constructor
    · rintro ((h | h) | h)
      · exact (pawnForwardList_dbl_iff b c pos hd0).mp h
      · exfalso
        have := mem_pawnDiagList b c pos (-1) _ h
        rw [Prod.ext_iff] at this
        have := this.2
        omega
      · exfalso
        have := mem_pawnDiagList b c pos 1 _ h
        rw [Prod.ext_iff] at this
        have := this.2
        omega
    · intro hr
      exact Or.inl (Or.inl ((pawnForwardList_dbl_iff b c pos hd0).mpr hr))
  · intro dy hdy hb1 hb2
    simp only [List.mem_append]
    constructor
    · rintro ((h | h) | h)
      · exfalso
        rcases mem_pawnForwardList b c pos _ h with heq | heq <;>
          · rw [Prod.ext_iff] at heq
            have := heq.2
            omega
      · rcases hdy with rfl | rfl
        · exact (pawnDiagList_mem_iff b c pos (-1) hb1 hb2).mp h
        · exfalso
          have := mem_pawnDiagList b c pos (-1) _ h
          rw [Prod.ext_iff] at this
          have := this.2
          omega
      · rcases hdy with rfl | rfl
        · exfalso
          have := mem_pawnDiagList b c pos 1 _ h
          rw [Prod.ext_iff] at this
          have := this.2
          omega
        · exact (pawnDiagList_mem_iff b c pos 1 hb1 hb2).mp h
    · intro hr
      rcases hdy with rfl | rfl
      · exact Or.inl (Or.inr
          ((pawnDiagList_mem_iff b c pos (-1) hb1 hb2).mpr hr))
      · exact Or.inr ((pawnDiagList_mem_iff b c pos 1 hb1 hb2).mpr hr)

/-- Witness for `c6_amended_pawn_move_iffs`: the white pawn on its start
square `(6, 4)` of the initial chess board is offered the double step. -/
theorem c6_amended_pawn_move_iffs_witness :
    pawnMovesE chessInitB Color.white (6, 4) = .ok [(5, 4), (4, 4)] ∧
    ((6 : Int) + 2 * pawnDir Color.white, (4 : Int)) ∈
      [((5 : Int), (4 : Int)), ((4 : Int), (4 : Int))] := by
  obtain ⟨L, hL, hdbl, hdiag⟩ :=
    c6_amended_pawn_move_iffs chessInitB Color.white (6, 4)
      (by decide) (by decide) (by decide) (by decide)
  have h2 : pawnMovesE chessInitB Color.white (6, 4) =
      .ok [(5, 4), (4, 4)] := by decide
  have hLv : L = [(5, 4), (4, 4)] :=
    (Except.ok.inj (h2.symm.trans hL)).symm
  refine ⟨h2, ?_⟩
  have hm := hdbl.mpr ⟨by decide, by decide, by decide⟩
  rwa [hLv] at hm

/-! ### C2 -/

/-- C2 (counterexample): selecting the white pawn at `(6, 4)` on the initial
chess board generates the destinations `(5, 4)` and `(4, 4)`, both *empty* at
generation time — yet `set_hints` stores the capture marker `'x'` for them,
because the truthiness test is applied to the selected piece (always non-null
here), not to the destination's occupancy.  The claim requires the plain
marker `'.'` for an empty destination. -/
theorem c2_empty_destination_marked_x :
    validMovesE ⟨Kind.pawn, Color.white⟩ chessInitB (6, 4) =
      .ok [(5, 4), (4, 4)] ∧
    boardAt chessInitB (5, 4) = none ∧
    setHints (some ⟨Kind.pawn, Color.white⟩) [(5, 4), (4, 4)] (5, 4) =
      some 'x' := by
  decide

/-- C2 (amended): `set_hints` gives *every* destination of the list the same
marker, driven solely by whether its `piece` argument is non-null: `'x'` for a
non-null piece (the only case reachable from `highlight_moves`, which passes
the selected piece) and `'.'` for `None`; destination occupancy plays no
role.  Squares outside the list get no hint. -/
theorem c2_amended_uniform_marker (p : Option Piece) (mvs : List IPos)
    (m : IPos) :
    (m ∈ mvs → setHints p mvs m = some (if p.isSome then 'x' else '.')) ∧
    (m ∉ mvs → setHints p mvs m = none) := by
  constructor <;> intro h <;> simp [setHints, h]

/-- Witness for `c2_amended_uniform_marker` at concrete inputs. -/
theorem c2_amended_uniform_marker_witness :
    setHints (some ⟨Kind.pawn, Color.white⟩) [(5, 4)] (5, 4) = some 'x' ∧
    setHints none [(5, 4)] (5, 4) = some '.' ∧
    setHints (some ⟨Kind.pawn, Color.white⟩) [(5, 4)] (0, 0) = none := by
  refine ⟨?_, ?_, ?_⟩
  · have h :=
      (c2_amended_uniform_marker (some ⟨Kind.pawn, Color.white⟩)
        [(5, 4)] (5, 4)).1 (by decide)
    exact h.trans (by decide)
  · have h :=
      (c2_amended_uniform_marker none [(5, 4)] (5, 4)).1 (by decide)
    exact h.trans (by decide)
  · exact
      (c2_amended_uniform_marker (some ⟨Kind.pawn, Color.white⟩)
        [(5, 4)] (0, 0)).2 (by decide)

/-! ### C4 -/

/-- C4 (confirmed): on both board variants, `move_piece(start, end)` returns
`False` and leaves the board exactly as it was whenever no piece stands at
`start`, or the piece's `valid_moves` list (when it is produced at all) does
not contain `end`. -/
theorem c4_rejected_move_leaves_board (b : Board) (s e : IPos) :
    (getPieceE b s = .ok none →
      movePieceE b s e = .ok (false, b) ∧
      checkerMovePieceE b s e = .ok (false, b)) ∧
    (∀ p L, getPieceE b s = .ok (some p) → validMovesE p b s = .ok L →
      e ∉ L →
      movePieceE b s e = .ok (false, b) ∧
      checkerMovePieceE b s e = .ok (false, b)) := by
  constructor
  · intro h
    constructor <;> simp [movePieceE, checkerMovePieceE, h]
  · intro p L h1 h2 h3
    constructor <;>
      simp [movePieceE, checkerMovePieceE, h1, h2, h3]

/-- Witness for `c4_rejected_move_leaves_board`: an empty start square on each
variant, and a destination outside the pawn's move list. -/
theorem c4_rejected_move_leaves_board_witness :
    movePieceE chessInitB (4, 4) (5, 5) = .ok (false, chessInitB) ∧
    checkerMovePieceE setupCheckers (3, 3) (4, 4) =
      .ok (false, setupCheckers) ∧
    movePieceE chessInitB (6, 4) (3, 3) = .ok (false, chessInitB) := by
  refine ⟨?_, ?_, ?_⟩
  · exact ((c4_rejected_move_leaves_board chessInitB (4, 4) (5, 5)).1
      (by decide)).1
  · exact ((c4_rejected_move_leaves_board setupCheckers (3, 3) (4, 4)).1
      (by decide)).2
  · exact ((c4_rejected_move_leaves_board chessInitB (6, 4) (3, 3)).2
      ⟨Kind.pawn, Color.white⟩ [(5, 4), (4, 4)]
      (by decide) (by decide) (by decide)).1

/-! ### C8 -/

/-- The row-major scan covers exactly the on-board squares. -/
theorem mem_squaresList (s : IPos) : s ∈ squaresList ↔ onBoard s := by
  obtain ⟨x, y⟩ := s
  constructor
  · intro h
    fin_cases h <;> decide
  · intro h
    obtain ⟨h1, h2, h3, h4⟩ := h
    dsimp only at h1 h2 h3 h4
    interval_cases x <;> interval_cases y <;> decide

/-- A non-empty `boardAt` result forces the square onto the board. -/
theorem onBoard_of_boardAt {b : Board} {s : IPos} {p : Piece}
    (h : boardAt b s = some p) : onBoard s := by
  by_contra hn
  rw [boardAt, if_neg hn] at h
  exact Option.noConfusion h

/-- Side condition for the amended threat claim: every piece of the scanned
(opposing) side generates successfully and only on-board destinations. -/
def opposingGenWithin (b : Board) (turn : Color) : Bool :=
  squaresList.all fun s =>
    match boardAt b s with
    | some p =>
      if p.color = turn then true
      else
        match validMovesE p b s with
        | .ok L => L.all fun m => decide (onBoard m)
        | .error _ => false
    | none => true

/-- Side condition for the amended threat claim: at most one king of the
given color stands on the board. -/
def atMostOneKing (b : Board) (turn : Color) : Bool :=
  squaresList.all fun s => squaresList.all fun t =>
    !(decide (boardAt b s = some ⟨Kind.king, turn⟩) &&
      decide (boardAt b t = some ⟨Kind.king, turn⟩)) || decide (s = t)

/-- Unpacking `opposingGenWithin`. -/
theorem opposingGenWithin_spec {b : Board} {turn : Color}
    (h : opposingGenWithin b turn = true) :
    ∀ s p, boardAt b s = some p → p.color ≠ turn →
      ∃ L, validMovesE p b s = .ok L ∧ ∀ m ∈ L, onBoard m := by
  intro s p hbs hpc
  have hsm : s ∈ squaresList := (mem_squaresList s).mpr (onBoard_of_boardAt hbs)
  have hb := List.all_eq_true.mp h s hsm
  rw [hbs] at hb
  dsimp only at hb
  rw [if_neg hpc] at hb
  cases hv : validMovesE p b s with
  | ok L =>
    rw [hv] at hb
    refine ⟨L, rfl, ?_⟩
    intro m hm
    exact of_decide_eq_true (List.all_eq_true.mp hb m hm)
  | error e =>
    rw [hv] at hb
    exact Bool.noConfusion hb

/-- Unpacking `atMostOneKing`. -/
theorem atMostOneKing_spec {b : Board} {turn : Color}
    (h : atMostOneKing b turn = true) :
    ∀ s t, boardAt b s = some ⟨Kind.king, turn⟩ →
      boardAt b t = some ⟨Kind.king, turn⟩ → s = t := by
  intro s t hs ht
  have hsm : s ∈ squaresList := (mem_squaresList s).mpr (onBoard_of_boardAt hs)
  have htm : t ∈ squaresList := (mem_squaresList t).mpr (onBoard_of_boardAt ht)
  have hb := List.all_eq_true.mp (List.all_eq_true.mp h s hsm) t htm
  rw [Bool.or_eq_true, Bool.not_eq_true', Bool.and_eq_false_iff] at hb
  rcases hb with h1 | h2
  · rcases h1 with h1 | h1 <;>
      simp only [decide_eq_false_iff_not] at h1
    · exact absurd hs h1
    · exact absurd ht h1
  · exact of_decide_eq_true h2

/-- If no king of the side stands on any scanned square, the king scan keeps
its accumulator. -/
theorem findKingAux_no_king (b : Board) (turn : Color) :
    ∀ (l : List IPos) (acc : Option IPos),
      (∀ s ∈ l, boardAt b s ≠ some ⟨Kind.king, turn⟩) →
      findKingAux b turn l acc = acc := by
  intro l
  induction l with
  | nil => intro acc _; rfl
  | cons s rest ih =>
    intro acc hno
    rw [findKingAux]
    cases hbs : boardAt b s with
    | none =>
      exact ih acc (fun t ht => hno t (List.mem_cons_of_mem s ht))
    | some p =>
      dsimp only
      by_cases hk : p.kind = Kind.king ∧ p.color = turn
      · exfalso
        rcases p with ⟨pk, pc⟩
        obtain ⟨h1, h2⟩ := hk
        dsimp only at h1 h2
        subst h1; subst h2
        exact hno s (List.mem_cons_self s rest) hbs
      · rw [if_neg hk]
        exact ih acc (fun t ht => hno t (List.mem_cons_of_mem s ht))

/-- If the side's unique king stands on a scanned square, the king scan
returns that square. -/
theorem findKingAux_some (b : Board) (turn : Color) (s0 : IPos)
    (hk : boardAt b s0 = some ⟨Kind.king, turn⟩) :
    ∀ (l : List IPos) (acc : Option IPos), s0 ∈ l →
      (∀ t ∈ l, boardAt b t = some ⟨Kind.king, turn⟩ → t = s0) →
      findKingAux b turn l acc = some s0 := by
  intro l
  induction l with
  | nil => intro acc hmem _; exact absurd hmem (List.not_mem_nil s0)
  | cons s rest ih =>
    intro acc hmem huniq
    rcases List.mem_cons.mp hmem with rfl | hrest
    · rw [findKingAux, hk]
      dsimp only
      rw [if_pos ⟨rfl, rfl⟩]
      by_cases hr : s0 ∈ rest
      · exact ih (some s0) hr
          (fun t ht => huniq t (List.mem_cons_of_mem _ ht))
      · apply findKingAux_no_king
        intro t ht hkt
        exact hr (huniq t (List.mem_cons_of_mem _ ht) hkt ▸ ht)
    · rw [findKingAux]
      exact ih _ hrest (fun t ht => huniq t (List.mem_cons_of_mem _ ht))

/-- `x` holds a piece of the scanned side (the color passed to
`detect_threats`). -/
def sideAt (b : Board) (turn : Color) (x : IPos) : Prop :=
  ∃ q, boardAt b x = some q ∧ q.color = turn

/-- The opposing piece at `s` generates (successfully) a move list containing
`x`. -/
def attackContrib (b : Board) (turn : Color) (s x : IPos) : Prop :=
  ∃ p L, boardAt b s = some p ∧ p.color ≠ turn ∧
    validMovesE p b s = .ok L ∧ x ∈ L

/-- Membership after one `threatened_positions` update. -/
theorem mem_threatAdd (turn : Color) (ts : List IPos) (m : IPos)
    (tp : Option Piece) (x : IPos) :
    x ∈ threatAdd turn ts m tp ↔
      x ∈ ts ∨ (x = m ∧ ∃ q, tp = some q ∧ q.color = turn) := by
  cases tp with
  | none => simp [threatAdd]
  | some q =>
    rw [threatAdd]
    by_cases hqc : q.color = turn
    · rw [if_pos hqc]
      by_cases hm : m ∈ ts
      · rw [if_pos hm]
        constructor
        · exact fun h => Or.inl h
        · rintro (h | ⟨rfl, _⟩)
          · exact h
          · exact hm
      · rw [if_neg hm, List.mem_append, List.mem_singleton]
        constructor
        · rintro (h | rfl)
          · exact Or.inl h
          · exact Or.inr ⟨rfl, q, rfl, hqc⟩
        · rintro (h | ⟨rfl, _⟩)
          · exact Or.inl h
          · exact Or.inr rfl
    · rw [if_neg hqc]
      constructor
      · exact fun h => Or.inl h
      · rintro (h | ⟨rfl, q', hq', hqc'⟩)
        · exact h
        · have hqq : q' = q := (Option.some.inj hq').symm
          subst hqq
          exact absurd hqc' hqc

/-- Characterisation of the inner move loop of `detect_threats`: it succeeds
whenever every destination is on the board, it adds exactly the destinations
whose (true) occupant has the scanned side's color, and it raises the check
flag exactly when some destination equals the king square. -/
theorem threatMoves_spec (b : Board) (hwf : BoardWF b) (turn : Color)
    (kp : Option IPos) :
    ∀ (mvs : List IPos) (st : List IPos × Bool), (∀ m ∈ mvs, onBoard m) →
      ∃ st', threatMoves b turn kp mvs st = .ok st' ∧
        (∀ x, x ∈ st'.1 ↔
          x ∈ st.1 ∨ (x ∈ mvs ∧ sideAt b turn x)) ∧
        (st'.2 = true ↔ st.2 = true ∨ ∃ m ∈ mvs, kp = some m) := by
  intro mvs
  induction mvs with
  | nil =>
    intro st _
    exact ⟨st, rfl, fun x => by simp, by simp⟩
  | cons m rest ih =>
    intro st hob
    have hmob : onBoard m := hob m (List.mem_cons_self m rest)
    have hget : getPieceE b m = .ok (boardAt b m) :=
      getPieceE_eq_boardAt b hwf m hmob
    rw [threatMoves, hget]
    obtain ⟨st', hst', hmem, hck⟩ :=
      ih (threatAdd turn st.1 m (boardAt b m), st.2 || decide (kp = some m))
        (fun m' hm' => hob m' (List.mem_cons_of_mem m hm'))
    refine ⟨st', hst', ?_, ?_⟩
    · intro x
      rw [hmem x]
      dsimp only
      rw [mem_threatAdd]
      constructor
      · rintro ((hA | ⟨rfl, hq⟩) | ⟨hr, hq⟩)
        · exact Or.inl hA
        · exact Or.inr ⟨List.mem_cons_self _ _, hq⟩
        · exact Or.inr ⟨List.mem_cons_of_mem _ hr, hq⟩
      · rintro (hA | ⟨hm', hq⟩)
        · exact Or.inl (Or.inl hA)
        · rcases List.mem_cons.mp hm' with rfl | hr
          · exact Or.inl (Or.inr ⟨rfl, hq⟩)
          · exact Or.inr ⟨hr, hq⟩
    · rw [hck]
      dsimp only
      rw [Bool.or_eq_true, decide_eq_true_eq]
      constructor
      · rintro ((h2 | hk) | ⟨m', hm', hk⟩)
        · exact Or.inl h2
        · exact Or.inr ⟨m, List.mem_cons_self m rest, hk⟩
        · exact Or.inr ⟨m', List.mem_cons_of_mem _ hm', hk⟩
      · rintro (h2 | ⟨m', hm', hk⟩)
        · exact Or.inl (Or.inl h2)
        · rcases List.mem_cons.mp hm' with rfl | hr
          · exact Or.inl (Or.inr hk)
          · exact Or.inr ⟨m', hr, hk⟩

/-- Characterisation of the outer square scan of `detect_threats`, under the
side condition that every opposing piece generates successfully with only
on-board destinations. -/
theorem threatSquares_spec (b : Board) (hwf : BoardWF b) (turn : Color)
    (kp : Option IPos)
    (hgen : ∀ s p, boardAt b s = some p → p.color ≠ turn →
      ∃ L, validMovesE p b s = .ok L ∧ ∀ m ∈ L, onBoard m) :
    ∀ (l : List IPos) (st : List IPos × Bool),
      ∃ st', threatSquares b turn kp l st = .ok st' ∧
        (∀ x, x ∈ st'.1 ↔ x ∈ st.1 ∨
          ∃ s ∈ l, attackContrib b turn s x ∧ sideAt b turn x) ∧
        (st'.2 = true ↔ st.2 = true ∨
          ∃ s ∈ l, ∃ p L, boardAt b s = some p ∧ p.color ≠ turn ∧
            validMovesE p b s = .ok L ∧ ∃ m ∈ L, kp = some m) := by
  intro l
  induction l with
  | nil =>
    intro st
    exact ⟨st, rfl, fun x => by simp, by simp⟩
  | cons s rest ih =>
    intro st
    rw [threatSquares]
    cases hbs : boardAt b s with
    | none =>
      dsimp only
      obtain ⟨st', hst', hmem, hck⟩ := ih st
      refine ⟨st', hst', ?_, ?_⟩
      · intro x
        rw [hmem x, List.exists_mem_cons_iff]
        have hno : ¬ (attackContrib b turn s x ∧ sideAt b turn x) := by
          rintro ⟨⟨p, L, hp, _⟩, _⟩
          rw [hbs] at hp
          exact Option.noConfusion hp
        rw [or_iff_right hno]
      · rw [hck, List.exists_mem_cons_iff]
        have hno : ¬ ∃ p L, boardAt b s = some p ∧ p.color ≠ turn ∧
            validMovesE p b s = .ok L ∧ ∃ m ∈ L, kp = some m := by
          rintro ⟨p, L, hp, _⟩
          rw [hbs] at hp
          exact Option.noConfusion hp
        rw [or_iff_right hno]
    | some p =>
      dsimp only
      by_cases hpc : p.color ≠ turn
      · rw [if_pos hpc]
        obtain ⟨L, hL, hLon⟩ := hgen s p hbs hpc
        rw [hL]
        dsimp only
        obtain ⟨st1, hst1, hm1, hc1⟩ := threatMoves_spec b hwf turn kp L st hLon
        rw [hst1]
        obtain ⟨st', hst', hmem, hck⟩ := ih st1
        refine ⟨st', hst', ?_, ?_⟩
        · intro x
          rw [hmem x, hm1 x, List.exists_mem_cons_iff]
          have hhead : (x ∈ L ∧ sideAt b turn x) ↔
              (attackContrib b turn s x ∧ sideAt b turn x) := by
            constructor
            · rintro ⟨hxL, hside⟩
              exact ⟨⟨p, L, hbs, hpc, hL, hxL⟩, hside⟩
            · rintro ⟨⟨p', L', hp', hpc', hL', hxL'⟩, hside⟩
              have hpp : p = p' := Option.some.inj (hbs.symm.trans hp')
              subst hpp
              have hLL : L = L' := Except.ok.inj (hL.symm.trans hL')
              subst hLL
              exact ⟨hxL', hside⟩
          rw [← hhead, or_assoc]
        · rw [hck, hc1, List.exists_mem_cons_iff]
          have hhead : (∃ m ∈ L, kp = some m) ↔
              (∃ p' L', boardAt b s = some p' ∧ p'.color ≠ turn ∧
                validMovesE p' b s = .ok L' ∧ ∃ m ∈ L', kp = some m) := by
            constructor
            · intro hm
              exact ⟨p, L, hbs, hpc, hL, hm⟩
            · rintro ⟨p', L', hp', hpc', hL', hm⟩
              have hpp : p = p' := Option.some.inj (hbs.symm.trans hp')
              subst hpp
              have hLL : L = L' := Except.ok.inj (hL.symm.trans hL')
              subst hLL
              exact hm
          rw [← hhead, or_assoc]
      · rw [if_neg hpc]
        obtain ⟨st', hst', hmem, hck⟩ := ih st
        refine ⟨st', hst', ?_, ?_⟩
        · intro x
          rw [hmem x, List.exists_mem_cons_iff]
          have hno : ¬ (attackContrib b turn s x ∧ sideAt b turn x) := by
            rintro ⟨⟨p', L, hp', hpc', _⟩, _⟩
            have hpp : p = p' := Option.some.inj (hbs.symm.trans hp')
            subst hpp
            exact hpc hpc'
          rw [or_iff_right hno]
        · rw [hck, List.exists_mem_cons_iff]
          have hno : ¬ ∃ p' L, boardAt b s = some p' ∧ p'.color ≠ turn ∧
              validMovesE p' b s = .ok L ∧ ∃ m ∈ L, kp = some m := by
            rintro ⟨p', L, hp', hpc', _⟩
            have hpp : p = p' := Option.some.inj (hbs.symm.trans hp')
            subst hpp
            exact hpc hpc'
          rw [or_iff_right hno]

/-- C8 (counterexample): with black to move on `pawnEdgeBoard`,
`detect_threats` terminates with `threatened_positions = {(-1, 2)}` — but
`(-1, 2)` is off the board and holds no piece of black (or of anyone): the
white pawn at `(0, 3)` emitted the off-board destination, and the unguarded
`get_piece((-1, 2))` wrapped around to the black knight at `(7, 2)`.  So
`threatened_positions` is *not* the set of squares holding a black piece that
appear in some white piece's moves. -/
theorem c8_offboard_marked_threatened :
    detectThreatsE pawnEdgeBoard Color.black = .ok ([(-1, 2)], false) ∧
    boardAt pawnEdgeBoard (-1, 2) = none := by
  decide

/-- C8 (amended): for a well-formed board on which every opposing piece
generates successfully and only on-board destinations (`opposingGenWithin`,
which the counterexample's wrap-around shows cannot be dropped) and that
holds at most one king of the scanned side, `detect_threats` succeeds;
`threatened_positions` is exactly the set of squares holding a piece of color
`turn` that appear in the generated moves of some opposing piece, and
`is_check` holds iff a square holding a King of color `turn` appears in the
generated moves of some opposing piece (with no king — e.g. checkers — it is
false). -/
theorem c8_amended_threat_detection (b : Board) (turn : Color)
    (hwf : BoardWF b) (hgen : opposingGenWithin b turn = true)
    (hking : atMostOneKing b turn = true) :
    ∃ ts chk, detectThreatsE b turn = .ok (ts, chk) ∧
      (∀ x, x ∈ ts ↔
        (sideAt b turn x ∧ ∃ s, attackContrib b turn s x)) ∧
      (chk = true ↔ ∃ s, boardAt b s = some ⟨Kind.king, turn⟩ ∧
        ∃ t, attackContrib b turn t s) := by
  obtain ⟨st', hst', hmem, hck⟩ :=
    threatSquares_spec b hwf turn (findKing b turn)
      (opposingGenWithin_spec hgen) squaresList ([], false)
  refine ⟨st'.1, st'.2, ?_, ?_, ?_⟩
  · rw [detectThreatsE, hst']
  · intro x
    rw [hmem x]
    simp only [List.not_mem_nil, false_or]
    constructor
    · rintro ⟨s, _, hcontrib, hside⟩
      exact ⟨hside, s, hcontrib⟩
    · rintro ⟨hside, s, hcontrib⟩
      obtain ⟨p, L, hp, hrest⟩ := hcontrib
      exact ⟨s, (mem_squaresList s).mpr (onBoard_of_boardAt hp),
        ⟨p, L, hp, hrest⟩, hside⟩
  · rw [hck]
    simp only [Bool.false_eq_true, false_or]
    by_cases hex : ∃ s0, boardAt b s0 = some ⟨Kind.king, turn⟩
    · obtain ⟨s0, hs0⟩ := hex
      have huniq := atMostOneKing_spec hking
      have hfk : findKing b turn = some s0 := by
        rw [findKing]
        exact findKingAux_some b turn s0 hs0 squaresList none
          ((mem_squaresList s0).mpr (onBoard_of_boardAt hs0))
          (fun t _ ht => huniq t s0 ht hs0)
      constructor
      · rintro ⟨s, _, p, L, hp, hpc, hL, m, hmL, hkpm⟩
        rw [hfk] at hkpm
        have hms : m = s0 := (Option.some.inj hkpm).symm
        exact ⟨s0, hs0, s, p, L, hp, hpc, hL, hms ▸ hmL⟩
      · rintro ⟨s, hks, t, p, L, hp', hpc', hL', hmL'⟩
        have hss0 : s = s0 := huniq s s0 hks hs0
        refine ⟨t, (mem_squaresList t).mpr (onBoard_of_boardAt hp'),
          p, L, hp', hpc', hL', s, hmL', ?_⟩
        rw [hfk, hss0]
    · have hfk : findKing b turn = none := by
        rw [findKing]
        exact findKingAux_no_king b turn squaresList none
          (fun s _ hs => hex ⟨s, hs⟩)
      constructor
      · rintro ⟨s, _, p, L, _, _, _, m, _, hkpm⟩
        rw [hfk] at hkpm
        exact Option.noConfusion hkpm
      · rintro ⟨s, hks, _⟩
        exact absurd ⟨s, hks⟩ hex

/-- A board with the black king on `(0, 4)` and a white rook on `(5, 4)`,
giving check along the file. -/
def kingThreatBoard : Board :=
  [[none, none, none, none, some ⟨.king, .black⟩, none, none, none],
   List.replicate 8 none, List.replicate 8 none, List.replicate 8 none,
   List.replicate 8 none,
   [none, none, none, none, some ⟨.rook, .white⟩, none, none, none],
   List.replicate 8 none, List.replicate 8 none]

/-- Witness for `c8_amended_threat_detection`: on `kingThreatBoard` with
black to move, the detector reports exactly the king square as threatened and
raises the check flag. -/
theorem c8_amended_threat_detection_witness :
    detectThreatsE kingThreatBoard Color.black = .ok ([(0, 4)], true) ∧
    ((0, 4) : IPos) ∈ [((0 : Int), (4 : Int))] := by
  obtain ⟨ts, chk, hd, hts, hchk⟩ :=
    c8_amended_threat_detection kingThreatBoard Color.black
      (by decide) (by decide) (by decide)
  have hconc : detectThreatsE kingThreatBoard Color.black =
      .ok ([(0, 4)], true) := by decide
  refine ⟨hconc, ?_⟩
  have hpair : (ts, chk) = (([((0 : Int), (4 : Int))] : List IPos), true) :=
    Except.ok.inj (hd.symm.trans hconc)
  have h04 : ((0, 4) : IPos) ∈ ts :=
    (hts (0, 4)).mpr
      ⟨⟨⟨Kind.king, Color.black⟩, by decide, rfl⟩,
        (5, 4), ⟨Kind.rook, Color.white⟩,
        rookMoves kingThreatBoard Color.white (5, 4),
        by decide, by decide, rfl, by decide⟩
  have hts_eq : ts = [((0 : Int), (4 : Int))] := congrArg Prod.fst hpair
  exact hts_eq ▸ h04

end Chess
